import Mathlib

/-!
Verification of the ReadDepthCalculator module (ReadDepthCalculator.py).

The embedding models the Python class ReadDepthCalculator: its state is the
triple (reads, loci, depths); list indexing follows Python semantics, where a
negative index wraps from the end of the list and an index outside
[-len, len) raises IndexError.  The method calculateDepth sorts the reads in
place, allocates a tally array of size getMaxPosition+1, applies the plus-one
and minus-one interval deltas with Python indexing, takes the running prefix sum (the
source aliases sums = tally, so the prefix-sum pass is an in-place update,
which is what prefixSums computes), and only then assigns self.depths.
-/

namespace ReadDepth

/-- The Python exception that list indexing can raise. -/
inductive PyErr where
  | indexError
deriving DecidableEq

instance {ε α : Type} [DecidableEq ε] [DecidableEq α] : DecidableEq (Except ε α) :=
  fun a b =>
    match a, b with
    | .ok x, .ok y => decidable_of_iff (x = y) (by simp)
    | .error x, .error y => decidable_of_iff (x = y) (by simp)
    | .ok _, .error _ => isFalse (by simp)
    | .error _, .ok _ => isFalse (by simp)

/-- A read: a (start position, length) pair of Python integers. -/
abbrev ReadPair := Int × Int

/-- State of a ReadDepthCalculator instance: reads, loci and depths. -/
structure ReadDepthCalculator where
  reads : List ReadPair
  loci : List Int
  depths : List Int
deriving DecidableEq

/-- Resolve a Python list index against a list of length n: a negative index
wraps from the end, and an index outside [-n, n) is an IndexError (none). -/
def pyIndex (n : Nat) (i : Int) : Option Nat :=
  if 0 ≤ i then
    if i < (n : Int) then some i.toNat else none
  else
    if 0 ≤ i + (n : Int) then some (i + (n : Int)).toNat else none

/-- Element of an integer list at a resolved (Nat) position, 0 past the end. -/
def nth (xs : List Int) (j : Nat) : Int := xs.getD j 0

/-- Python xs[i] on a list of integers. -/
def pyGetInt (xs : List Int) (i : Int) : Except PyErr Int :=
  match pyIndex xs.length i with
  | some j => .ok (nth xs j)
  | none => .error .indexError

/-- Python xs[i] += c style update: read, apply f, write back at index i. -/
def pyModify (xs : List Int) (i : Int) (f : Int → Int) : Except PyErr (List Int) :=
  match pyIndex xs.length i with
  | some j => .ok (xs.set j (f (nth xs j)))
  | none => .error .indexError

/-- Constructor semantics when the caller passes fresh lists: reads and loci
are stored, self.depths starts as the empty list. -/
def initCalculator (reads : List ReadPair) (loci : List Int) : ReadDepthCalculator :=
  ⟨reads, loci, []⟩

/-- addReads: self.reads += readslist. -/
def addReads (rdc : ReadDepthCalculator) (readslist : List ReadPair) :
    ReadDepthCalculator :=
  ⟨rdc.reads ++ readslist, rdc.loci, rdc.depths⟩

/-- addLoci: self.loci += locilist. -/
def addLoci (rdc : ReadDepthCalculator) (locilist : List Int) :
    ReadDepthCalculator :=
  ⟨rdc.reads, rdc.loci ++ locilist, rdc.depths⟩

/-- getReads accessor. -/
def getReads (rdc : ReadDepthCalculator) : List ReadPair := rdc.reads

/-- getLoci accessor. -/
def getLoci (rdc : ReadDepthCalculator) : List Int := rdc.loci

/-- getDepths accessor: returns self.depths as is. -/
def getDepths (rdc : ReadDepthCalculator) : List Int := rdc.depths

/-- Depth lookup as performed by populateLociCSVDepthField: a plain Python
index into self.depths, so Python indexing semantics apply. -/
def depthAt (depths : List Int) (locus : Int) : Except PyErr Int :=
  pyGetInt depths locus

/-- The ordering used by preprocessReadData: sort key itemgetter(0,1), that
is, lexicographic on (start, length). -/
def readLE (a b : ReadPair) : Prop :=
  a.1 < b.1 ∨ (a.1 = b.1 ∧ a.2 ≤ b.2)

instance : DecidableRel readLE := fun a b =>
  decidable_of_iff (a.1 < b.1 ∨ (a.1 = b.1 ∧ a.2 ≤ b.2)) Iff.rfl

instance : IsTotal ReadPair readLE := by
  constructor
  intro a b
  unfold readLE
  omega

instance : IsTrans ReadPair readLE := by
  constructor
  intro a b c hab hbc
  unfold readLE at hab hbc ⊢
  omega

/-- preprocessReadData: self.reads.sort(key=itemgetter(0,1)).  The key is the
whole pair, so the sorted result is unique among permutations and a sorted
insertion sort is extensionally the Python sort. -/
def preprocessReadData (reads : List ReadPair) : List ReadPair :=
  List.insertionSort readLE reads

/-- getMaxPosition: running maximum of start+length over the reads,
starting from 0. -/
def getMaxPosition (reads : List ReadPair) : Int :=
  reads.foldl (fun m p => if p.1 + p.2 > m then p.1 + p.2 else m) 0

/-- The first loop of calculateDepth: for each pair, tally[start] += 1 and
tally[start+length] -= 1, with Python indexing; an IndexError aborts. -/
def applyDeltas (tally : List Int) : List ReadPair → Except PyErr (List Int)
  | [] => .ok tally
  | r :: rest =>
    match pyModify tally r.1 (fun x => x + 1) with
    | .error e => .error e
    | .ok t1 =>
      match pyModify t1 (r.1 + r.2) (fun x => x - 1) with
      | .error e => .error e
      | .ok t2 => applyDeltas t2 rest

/-- The second loop of calculateDepth, the in-place running prefix sum:
sums[i] = tally[i] + prior; prior = sums[i]. -/
def prefixSums (prior : Int) : List Int → List Int
  | [] => []
  | x :: xs => (x + prior) :: prefixSums (x + prior) xs

/-- calculateDepth: sort the reads in place, allocate tally of size
getMaxPosition+1, apply the deltas, prefix-sum, and assign self.depths.
If a delta update raises, the exception propagates and self.depths is left
as it was (only the sort of self.reads has happened). -/
def calculateDepth (rdc : ReadDepthCalculator) :
    ReadDepthCalculator × Option PyErr :=
  let sorted := preprocessReadData rdc.reads
  let tally := List.replicate ((getMaxPosition sorted) + 1).toNat 0
  match applyDeltas tally sorted with
  | .error e => (⟨sorted, rdc.loci, rdc.depths⟩, some e)
  | .ok t => (⟨sorted, rdc.loci, prefixSums 0 t⟩, none)

/-- Brute-force coverage oracle from the spec: the number of reads (s, l)
with s ≤ p < s + l. -/
def countCovering (reads : List ReadPair) (p : Int) : Nat :=
  (reads.filter (fun r => decide (r.1 ≤ p ∧ p < r.1 + r.2))).length

/-- Net delta contributed at (Nat) position i by a list of reads:
+1 for each read starting at i, -1 for each read ending at i. -/
def deltaAt (reads : List ReadPair) (i : Nat) : Int :=
  reads.foldr
    (fun r acc =>
      ((if r.1 = (i : Int) then 1 else 0) - (if r.1 + r.2 = (i : Int) then 1 else 0)) + acc)
    0

/-- Sum of f 0 + f 1 + ... + f (n-1). -/
def sumUpTo (f : Nat → Int) : Nat → Int
  | 0 => 0
  | n + 1 => sumUpTo f n + f n

/-! ### Lemmas about getMaxPosition -/

lemma foldlMax_ge_init :
    ∀ (reads : List ReadPair) (a : Int),
      a ≤ reads.foldl (fun m p => if p.1 + p.2 > m then p.1 + p.2 else m) a := by
  intro reads
  induction reads with
  | nil => intro a; simp
  | cons r rest ih =>
    intro a
    simp only [List.foldl_cons]
    have h1 := ih (if r.1 + r.2 > a then r.1 + r.2 else a)
    have h2 : a ≤ (if r.1 + r.2 > a then r.1 + r.2 else a) := by split <;> omega
    omega

lemma foldlMax_ge_mem :
    ∀ (reads : List ReadPair) (a : Int) (r : ReadPair), r ∈ reads →
      r.1 + r.2 ≤ reads.foldl (fun m p => if p.1 + p.2 > m then p.1 + p.2 else m) a := by
  intro reads
  induction reads with
  | nil => intro a r hr; cases hr
  | cons q rest ih =>
    intro a r hr
    simp only [List.foldl_cons]
    rcases List.mem_cons.mp hr with h | h
    · subst h
      have h1 : r.1 + r.2 ≤ (if r.1 + r.2 > a then r.1 + r.2 else a) := by split <;> omega
      have h2 := foldlMax_ge_init rest (if r.1 + r.2 > a then r.1 + r.2 else a)
      omega
    · exact ih _ r h

lemma foldlMax_achieved :
    ∀ (reads : List ReadPair) (a : Int),
      reads.foldl (fun m p => if p.1 + p.2 > m then p.1 + p.2 else m) a = a ∨
        ∃ r ∈ reads,
          reads.foldl (fun m p => if p.1 + p.2 > m then p.1 + p.2 else m) a = r.1 + r.2 := by
  intro reads
  induction reads with
  | nil => intro a; left; rfl
  | cons q rest ih =>
    intro a
    simp only [List.foldl_cons]
    rcases ih (if q.1 + q.2 > a then q.1 + q.2 else a) with h | ⟨r, hr, h⟩
    · rw [h]
      split
      · right; exact ⟨q, List.mem_cons_self q rest, rfl⟩
      · left; rfl
    · right; exact ⟨r, List.mem_cons_of_mem q hr, h⟩

lemma getMaxPosition_nonneg (reads : List ReadPair) : 0 ≤ getMaxPosition reads :=
  foldlMax_ge_init reads 0

lemma le_getMaxPosition (reads : List ReadPair) (r : ReadPair) (hr : r ∈ reads) :
    r.1 + r.2 ≤ getMaxPosition reads :=
  foldlMax_ge_mem reads 0 r hr

lemma getMaxPosition_achieved (reads : List ReadPair) :
    getMaxPosition reads = 0 ∨ ∃ r ∈ reads, getMaxPosition reads = r.1 + r.2 :=
  foldlMax_achieved reads 0

lemma getMaxPosition_perm {l1 l2 : List ReadPair} (h : l1.Perm l2) :
    getMaxPosition l1 = getMaxPosition l2 := by
  have half : ∀ {a b : List ReadPair}, a.Perm b → getMaxPosition a ≤ getMaxPosition b := by
    intro a b hab
    rcases getMaxPosition_achieved a with h0 | ⟨r, hr, heq⟩
    · rw [h0]; exact getMaxPosition_nonneg b
    · rw [heq]; exact le_getMaxPosition b r (hab.subset hr)
  exact le_antisymm (half h) (half h.symm)

/-! ### Lemmas about nth, set and replicate -/

lemma nth_set (xs : List Int) (k j : Nat) (v : Int) :
    nth (xs.set k v) j = if j = k ∧ k < xs.length then v else nth xs j := by
  induction xs generalizing k j with
  | nil => simp [nth]
  | cons x t ih =>
    cases k with
    | zero =>
      cases j with
      | zero => simp [nth]
      | succ q => simp [nth, List.set]
    | succ p =>
      cases j with
      | zero => simp [nth, List.set]
      | succ q =>
        simp only [List.set, nth, List.getD_cons_succ, List.length_cons]
        rw [show (List.getD (List.set t p v) q 0 = nth (List.set t p v) q) from rfl]
        rw [ih p q]
        simp only [nth]
        split
        · rename_i hc
          rw [if_pos ⟨by omega, by omega⟩]
        · rename_i hc
          rw [if_neg (by omega)]

lemma nth_set_eq (xs : List Int) (k : Nat) (hk : k < xs.length) (v : Int) :
    nth (xs.set k v) k = v := by
  rw [nth_set, if_pos ⟨rfl, hk⟩]

lemma nth_set_ne (xs : List Int) (k j : Nat) (h : j ≠ k) (v : Int) :
    nth (xs.set k v) j = nth xs j := by
  rw [nth_set, if_neg (fun hc => h hc.1)]

lemma nth_replicate (n j : Nat) : nth (List.replicate n (0 : Int)) j = 0 := by
  induction n generalizing j with
  | zero => simp [nth]
  | succ m ih =>
    cases j with
    | zero => simp [nth, List.replicate]
    | succ q =>
      simp only [nth, List.replicate, List.getD_cons_succ]
      exact ih q

/-! ### Lemmas about pyIndex and pyModify -/

lemma pyIndex_nonneg (n : Nat) (i : Int) (h0 : 0 ≤ i) (h1 : i < (n : Int)) :
    pyIndex n i = some i.toNat := by
  unfold pyIndex
  rw [if_pos h0, if_pos h1]

lemma pyModify_nonneg (xs : List Int) (i : Int) (f : Int → Int)
    (h0 : 0 ≤ i) (h1 : i < (xs.length : Int)) :
    pyModify xs i f = .ok (xs.set i.toNat (f (nth xs i.toNat))) := by
  unfold pyModify
  rw [pyIndex_nonneg _ _ h0 h1]

lemma pyModify_length (xs ys : List Int) (i : Int) (f : Int → Int)
    (h : pyModify xs i f = .ok ys) : ys.length = xs.length := by
  unfold pyModify at h
  cases hidx : pyIndex xs.length i with
  | none => rw [hidx] at h; cases h
  | some j =>
    rw [hidx] at h
    cases h
    exact List.length_set xs j _

/-! ### Lemmas about sumUpTo -/

lemma sumUpTo_congr (f g : Nat → Int) (h : ∀ i, f i = g i) :
    ∀ n, sumUpTo f n = sumUpTo g n := by
  intro n
  induction n with
  | zero => rfl
  | succ m ih => simp only [sumUpTo, ih, h m]

lemma sumUpTo_const_zero (n : Nat) : sumUpTo (fun _ => 0) n = 0 := by
  induction n with
  | zero => rfl
  | succ m ih => simp only [sumUpTo, ih]; omega

lemma sumUpTo_add (f g : Nat → Int) :
    ∀ n, sumUpTo (fun i => f i + g i) n = sumUpTo f n + sumUpTo g n := by
  intro n
  induction n with
  | zero => rfl
  | succ m ih => simp only [sumUpTo, ih]; omega

lemma sumUpTo_sub (f g : Nat → Int) :
    ∀ n, sumUpTo (fun i => f i - g i) n = sumUpTo f n - sumUpTo g n := by
  intro n
  induction n with
  | zero => rfl
  | succ m ih => simp only [sumUpTo, ih]; omega

lemma sumUpTo_indicator (a : Int) :
    ∀ n : Nat, sumUpTo (fun i => if a = (i : Int) then 1 else 0) n =
      if 0 ≤ a ∧ a < (n : Int) then 1 else 0 := by
  intro n
  induction n with
  | zero => simp only [sumUpTo]; split <;> omega
  | succ m ih =>
    simp only [sumUpTo, ih]
    split <;> split <;> split <;> omega

/-! ### Lemmas about deltaAt -/

lemma deltaAt_nil (i : Nat) : deltaAt [] i = 0 := rfl

lemma deltaAt_cons (r : ReadPair) (rest : List ReadPair) (i : Nat) :
    deltaAt (r :: rest) i =
      ((if r.1 = (i : Int) then 1 else 0) - (if r.1 + r.2 = (i : Int) then 1 else 0)) +
        deltaAt rest i := rfl

/-! ### Lemmas about prefixSums -/

lemma prefixSums_length : ∀ (t : List Int) (c : Int), (prefixSums c t).length = t.length := by
  intro t
  induction t with
  | nil => intro c; rfl
  | cons x xs ih => intro c; simp only [prefixSums, List.length_cons, ih]

lemma sumUpTo_nth_cons (x : Int) (xs : List Int) :
    ∀ n, sumUpTo (fun i => nth (x :: xs) i) (n + 1) = x + sumUpTo (fun i => nth xs i) n := by
  intro n
  induction n with
  | zero => simp [sumUpTo, nth]
  | succ m ih =>
    have step : sumUpTo (fun i => nth (x :: xs) i) (m + 2) =
        sumUpTo (fun i => nth (x :: xs) i) (m + 1) + nth (x :: xs) (m + 1) := rfl
    have step2 : sumUpTo (fun i => nth xs i) (m + 1) =
        sumUpTo (fun i => nth xs i) m + nth xs m := rfl
    have hn : nth (x :: xs) (m + 1) = nth xs m := by simp [nth]
    rw [step, ih, step2, hn]
    omega

lemma nth_prefixSums :
    ∀ (t : List Int) (c : Int) (p : Nat), p < t.length →
      nth (prefixSums c t) p = c + sumUpTo (fun i => nth t i) (p + 1) := by
  intro t
  induction t with
  | nil => intro c p hp; cases hp
  | cons x xs ih =>
    intro c p hp
    cases p with
    | zero => simp [prefixSums, nth, sumUpTo]; omega
    | succ q =>
      have hq : q < xs.length := by simpa using hp
      have h1 : nth (prefixSums c (x :: xs)) (q + 1) = nth (prefixSums (x + c) xs) q := by
        simp [prefixSums, nth]
      rw [h1, ih (x + c) q hq, sumUpTo_nth_cons]
      omega

/-! ### The delta-accumulation loop -/

lemma applyDeltas_ok :
    ∀ (reads : List ReadPair) (tally : List Int),
      (∀ r ∈ reads, 0 ≤ r.1 ∧ 0 ≤ r.2 ∧ r.1 + r.2 < (tally.length : Int)) →
      ∃ t, applyDeltas tally reads = .ok t ∧ t.length = tally.length ∧
        ∀ j : Nat, nth t j = nth tally j + deltaAt reads j := by
  intro reads
  induction reads with
  | nil =>
    intro tally _
    exact ⟨tally, rfl, rfl, fun j => by rw [deltaAt_nil]; omega⟩
  | cons r rest ih =>
    intro tally h
    obtain ⟨hs, hl, hb⟩ := h r (List.mem_cons_self r rest)
    have hs1 : r.1 < (tally.length : Int) := by omega
    have hmod1 := pyModify_nonneg tally r.1 (fun x => x + 1) hs hs1
    set t1 := tally.set r.1.toNat (nth tally r.1.toNat + 1) with ht1
    have hlen1 : t1.length = tally.length := List.length_set tally _ _
    have he0 : 0 ≤ r.1 + r.2 := by omega
    have he1 : r.1 + r.2 < (t1.length : Int) := by rw [hlen1]; exact hb
    have hmod2 := pyModify_nonneg t1 (r.1 + r.2) (fun x => x - 1) he0 he1
    set t2 := t1.set (r.1 + r.2).toNat (nth t1 (r.1 + r.2).toNat - 1) with ht2
    have hlen2 : t2.length = tally.length := by
      rw [ht2, List.length_set, hlen1]
    have hrest : ∀ q ∈ rest, 0 ≤ q.1 ∧ 0 ≤ q.2 ∧ q.1 + q.2 < (t2.length : Int) := by
      intro q hq
      obtain ⟨a, b, c⟩ := h q (List.mem_cons_of_mem r hq)
      rw [hlen2]
      exact ⟨a, b, c⟩
    obtain ⟨t, heq, hlen, hpt⟩ := ih t2 hrest
    refine ⟨t, ?_, by rw [hlen, hlen2], ?_⟩
    · show applyDeltas tally (r :: rest) = Except.ok t
      unfold applyDeltas
      rw [hmod1]
      dsimp only
      rw [hmod2]
      dsimp only
      exact heq
    · intro j
      rw [hpt j, deltaAt_cons]
      have hc1 : (r.1.toNat : Int) = r.1 := Int.toNat_of_nonneg hs
      have hc2 : ((r.1 + r.2).toNat : Int) = r.1 + r.2 := Int.toNat_of_nonneg he0
      by_cases hje : (j : Int) = r.1 + r.2
      · have ej : (r.1 + r.2).toNat = j := by omega
        have hjlen1 : j < t1.length := by rw [hlen1]; omega
        have v2 : nth t2 j = nth t1 j - 1 := by
          rw [ht2, ej]
          exact nth_set_eq t1 j hjlen1 _
        by_cases hjs : (j : Int) = r.1
        · have sj : r.1.toNat = j := by omega
          have hjlen0 : j < tally.length := by omega
          have v1 : nth t1 j = nth tally j + 1 := by
            rw [ht1, sj]
            exact nth_set_eq tally j hjlen0 _
          rw [v2, v1]
          split_ifs <;> omega
        · have sj : j ≠ r.1.toNat := by omega
          have v1 : nth t1 j = nth tally j := by
            rw [ht1]
            exact nth_set_ne tally _ j sj _
          rw [v2, v1]
          split_ifs <;> omega
      · have ej : j ≠ (r.1 + r.2).toNat := by omega
        have v2 : nth t2 j = nth t1 j := by
          rw [ht2]
          exact nth_set_ne t1 _ j ej _
        by_cases hjs : (j : Int) = r.1
        · have sj : r.1.toNat = j := by omega
          have hjlen0 : j < tally.length := by omega
          have v1 : nth t1 j = nth tally j + 1 := by
            rw [ht1, sj]
            exact nth_set_eq tally j hjlen0 _
          rw [v2, v1]
          split_ifs <;> omega
        · have sj : j ≠ r.1.toNat := by omega
          have v1 : nth t1 j = nth tally j := by
            rw [ht1]
            exact nth_set_ne tally _ j sj _
          rw [v2, v1]
          split_ifs <;> omega

lemma applyDeltas_ok_length :
    ∀ (reads : List ReadPair) (tally t : List Int),
      applyDeltas tally reads = .ok t → t.length = tally.length := by
  intro reads
  induction reads with
  | nil =>
    intro tally t h
    cases h
    rfl
  | cons r rest ih =>
    intro tally t h
    unfold applyDeltas at h
    cases h1 : pyModify tally r.1 (fun x => x + 1) with
    | error e => rw [h1] at h; cases h
    | ok u1 =>
      rw [h1] at h
      dsimp only at h
      cases h2 : pyModify u1 (r.1 + r.2) (fun x => x - 1) with
      | error e => rw [h2] at h; cases h
      | ok u2 =>
        rw [h2] at h
        dsimp only at h
        have := ih u2 t h
        rw [this, pyModify_length u1 u2 _ _ h2, pyModify_length tally u1 _ _ h1]

/-! ### Counting lemmas -/

lemma countCovering_cons (r : ReadPair) (rest : List ReadPair) (p : Int) :
    countCovering (r :: rest) p =
      (if r.1 ≤ p ∧ p < r.1 + r.2 then 1 else 0) + countCovering rest p := by
  simp only [countCovering, List.filter_cons]
  split <;> rename_i hc <;> simp_all
  omega

lemma countCovering_perm {l1 l2 : List ReadPair} (h : l1.Perm l2) (p : Int) :
    countCovering l1 p = countCovering l2 p :=
  (h.filter _).length_eq

lemma sumUpTo_deltaAt :
    ∀ (reads : List ReadPair), (∀ r ∈ reads, 0 ≤ r.1 ∧ 0 ≤ r.2) →
      ∀ p : Nat, sumUpTo (fun i => deltaAt reads i) (p + 1) =
        (countCovering reads p : Int) := by
  intro reads
  induction reads with
  | nil =>
    intro _ p
    rw [sumUpTo_congr _ (fun _ => 0) (fun i => deltaAt_nil i), sumUpTo_const_zero]
    simp [countCovering]
  | cons r rest ih =>
    intro h p
    obtain ⟨hs, hl⟩ := h r (List.mem_cons_self r rest)
    have hrest := fun q hq => h q (List.mem_cons_of_mem r hq)
    rw [sumUpTo_congr _ _ (fun i => deltaAt_cons r rest i), sumUpTo_add, ih hrest p]
    rw [sumUpTo_sub, sumUpTo_indicator, sumUpTo_indicator, countCovering_cons]
    push_cast
    split_ifs <;> omega

/-! ### Assembly: full specification of calculateDepth on well-formed reads -/

lemma calculateDepth_eq (rdc : ReadDepthCalculator) :
    calculateDepth rdc =
      match applyDeltas
          (List.replicate ((getMaxPosition (preprocessReadData rdc.reads)) + 1).toNat 0)
          (preprocessReadData rdc.reads) with
      | .error e => (⟨preprocessReadData rdc.reads, rdc.loci, rdc.depths⟩, some e)
      | .ok t => (⟨preprocessReadData rdc.reads, rdc.loci, prefixSums 0 t⟩, none) := rfl

lemma calculateDepth_spec (rdc : ReadDepthCalculator)
    (h : ∀ r ∈ rdc.reads, 0 ≤ r.1 ∧ 0 ≤ r.2) :
    (calculateDepth rdc).2 = none ∧
    ((calculateDepth rdc).1.depths).length = (getMaxPosition rdc.reads).toNat + 1 ∧
    ∀ p : Nat, p < ((calculateDepth rdc).1.depths).length →
      nth ((calculateDepth rdc).1.depths) p = (countCovering rdc.reads (p : Int) : Int) := by
  have hperm : (preprocessReadData rdc.reads).Perm rdc.reads :=
    List.perm_insertionSort readLE rdc.reads
  have hmem : ∀ r ∈ preprocessReadData rdc.reads, 0 ≤ r.1 ∧ 0 ≤ r.2 :=
    fun r hr => h r (hperm.subset hr)
  have hgm : getMaxPosition (preprocessReadData rdc.reads) = getMaxPosition rdc.reads :=
    getMaxPosition_perm hperm
  have hgm0 : 0 ≤ getMaxPosition (preprocessReadData rdc.reads) := getMaxPosition_nonneg _
  set n := ((getMaxPosition (preprocessReadData rdc.reads)) + 1).toNat with hn
  have hbound : ∀ r ∈ preprocessReadData rdc.reads,
      0 ≤ r.1 ∧ 0 ≤ r.2 ∧ r.1 + r.2 < (((List.replicate n (0 : Int)).length : Nat) : Int) := by
    intro r hr
    have h1 := hmem r hr
    have h2 := le_getMaxPosition _ r hr
    rw [List.length_replicate]
    exact ⟨h1.1, h1.2, by omega⟩
  obtain ⟨t, heq, hlen, hpt⟩ :=
    applyDeltas_ok (preprocessReadData rdc.reads) (List.replicate n 0) hbound
  have hcalc : calculateDepth rdc =
      (⟨preprocessReadData rdc.reads, rdc.loci, prefixSums 0 t⟩, none) := by
    rw [calculateDepth_eq, heq]
  rw [hcalc]
  have hlen2 : (prefixSums 0 t).length = n := by
    rw [prefixSums_length, hlen, List.length_replicate]
  refine ⟨rfl, ?_, ?_⟩
  · show (prefixSums 0 t).length = (getMaxPosition rdc.reads).toNat + 1
    rw [hlen2]
    omega
  · intro p hp
    show nth (prefixSums 0 t) p = (countCovering rdc.reads (p : Int) : Int)
    have hp2 : p < t.length := by
      rw [hlen, List.length_replicate]
      rw [hlen2] at hp
      exact hp
    rw [nth_prefixSums t 0 p hp2]
    have hcongr : ∀ i, nth t i = deltaAt (preprocessReadData rdc.reads) i := by
      intro i
      rw [hpt i, nth_replicate]
      omega
    rw [sumUpTo_congr _ _ hcongr, sumUpTo_deltaAt _ hmem p, countCovering_perm hperm]
    omega

lemma depthAt_oob (d : List Int) (locus : Int)
    (h : (d.length : Int) ≤ locus ∨ locus < -(d.length : Int)) :
    depthAt d locus = .error .indexError := by
  unfold depthAt pyGetInt
  have hidx : pyIndex d.length locus = none := by
    unfold pyIndex
    split_ifs <;> first | rfl | (exfalso; omega)
  rw [hidx]

lemma depthAt_nil (locus : Int) : depthAt [] locus = .error .indexError :=
  depthAt_oob [] locus (by simp only [List.length_nil, Nat.cast_zero, neg_zero]; omega)

/-! ### Object-identity model for the default-argument construction

The constructor is declared as def init(self, reads=[], loci=[]): in CPython
the two default list objects are created once, when the def statement runs
at module load, and every call that omits the argument binds the same object.
self.reads += readslist extends that list object in place.  The heap model
below makes the object identities explicit. -/

/-- Heap of Python list objects, addressed by allocation index. -/
structure Heap where
  readLists : List (List ReadPair)
  intLists : List (List Int)
deriving DecidableEq

/-- An engine instance holds references to its three list objects. -/
structure EngineRef where
  readsRef : Nat
  lociRef : Nat
  depthsRef : Nat
deriving DecidableEq

/-- The default-argument objects reads=[] and loci=[] are allocated once at
module load; they live at address 0 of their stores. -/
def initialHeap : Heap := ⟨[[]], [[]]⟩

/-- Allocate a fresh integer-list object (a [] literal evaluated at runtime). -/
def allocIntList (h : Heap) (v : List Int) : Heap × Nat :=
  (⟨h.readLists, h.intLists ++ [v]⟩, h.intLists.length)

/-- Constructing with no arguments: self.reads and self.loci bind the shared
default objects at address 0, while self.depths = [] allocates a fresh list. -/
def newEngineDefault (h : Heap) : Heap × EngineRef :=
  let a := allocIntList h []
  (a.1, ⟨0, 0, a.2⟩)

/-- addReads on an engine reference: self.reads += readslist extends the
referenced list object in place, visible through every alias. -/
def heapAddReads (h : Heap) (e : EngineRef) (lst : List ReadPair) : Heap :=
  ⟨h.readLists.set e.readsRef ((h.readLists.getD e.readsRef []) ++ lst), h.intLists⟩

/-- getReads on an engine reference: dereference self.reads. -/
def heapGetReads (h : Heap) (e : EngineRef) : List ReadPair :=
  h.readLists.getD e.readsRef []

/-! ### Claims -/

/-- Claim C1: after calculateDepth runs on a ReadSet whose intervals all have
non-negative start and non-negative length, every position p below the length
of the stored DepthProfile holds exactly the number of intervals (s, l) of the
ReadSet with s ≤ p < s + l. -/
theorem C1_depth_matches_oracle (rdc : ReadDepthCalculator)
    (h : ∀ r ∈ rdc.reads, 0 ≤ r.1 ∧ 0 ≤ r.2) :
    ∀ p : Nat, p < ((calculateDepth rdc).1.depths).length →
      nth ((calculateDepth rdc).1.depths) p = (countCovering rdc.reads (p : Int) : Int) :=
  (calculateDepth_spec rdc h).2.2

/-- Witness for C1 at the test scenario reads [(10,30),(20,40)], position 30. -/
theorem C1_depth_matches_oracle_witness :
    nth ((calculateDepth ⟨[(10, 30), (20, 40)], [5, 15, 30], []⟩).1.depths) 30 =
      (countCovering [(10, 30), (20, 40)] ((30 : Nat) : Int) : Int) :=
  C1_depth_matches_oracle ⟨[(10, 30), (20, 40)], [5, 15, 30], []⟩ (by decide) 30 (by decide)

/-- Claim C2: for a ReadSet of non-negative intervals, the DepthProfile stored
by calculateDepth has length maxEnd + 1, where maxEnd (getMaxPosition) is the
maximum of start+length over the intervals, or 0 when the ReadSet is empty. -/
theorem C2_profile_length (rdc : ReadDepthCalculator)
    (h : ∀ r ∈ rdc.reads, 0 ≤ r.1 ∧ 0 ≤ r.2) :
    ((calculateDepth rdc).1.depths).length = (getMaxPosition rdc.reads).toNat + 1 ∧
    (∀ r ∈ rdc.reads, r.1 + r.2 ≤ getMaxPosition rdc.reads) ∧
    (rdc.reads = [] → getMaxPosition rdc.reads = 0) ∧
    (rdc.reads ≠ [] → ∃ r ∈ rdc.reads, getMaxPosition rdc.reads = r.1 + r.2) := by
  refine ⟨(calculateDepth_spec rdc h).2.1, fun r hr => le_getMaxPosition _ r hr, ?_, ?_⟩
  · intro he
    rw [he]
    rfl
  · intro hne
    rcases getMaxPosition_achieved rdc.reads with h0 | hach
    · obtain ⟨a, hmem⟩ := List.exists_mem_of_ne_nil rdc.reads hne
      have ha := h a hmem
      have hle := le_getMaxPosition rdc.reads a hmem
      exact ⟨a, hmem, by omega⟩
    · exact hach

/-- Witness for C2 at the concrete ReadSet [(1,2),(0,3)]. -/
theorem C2_profile_length_witness :
    ((calculateDepth ⟨[(1, 2), (0, 3)], [], []⟩).1.depths).length =
        (getMaxPosition [(1, 2), (0, 3)]).toNat + 1 ∧
    (∀ r ∈ ([(1, 2), (0, 3)] : List ReadPair), r.1 + r.2 ≤ getMaxPosition [(1, 2), (0, 3)]) ∧
    (([(1, 2), (0, 3)] : List ReadPair) = [] → getMaxPosition [(1, 2), (0, 3)] = 0) ∧
    (([(1, 2), (0, 3)] : List ReadPair) ≠ [] →
      ∃ r ∈ ([(1, 2), (0, 3)] : List ReadPair), getMaxPosition [(1, 2), (0, 3)] = r.1 + r.2) :=
  C2_profile_length ⟨[(1, 2), (0, 3)], [], []⟩ (by decide)

/-- Claim C3 counterexample: depths [0] is a computed DepthProfile (the empty
ReadSet yields it) and -1 is a negative locus, yet the query silently returns
the depth 0 instead of failing: Python indexing wraps negative loci. -/
theorem C3_neg_locus_silently_returns :
    depthAt (calculateDepth ⟨[], [], []⟩).1.depths (-1) = .ok 0 := by decide

/-- Claim C3 (amended): a depth query at a locus at or beyond
len(DepthProfile), or below -len(DepthProfile), fails with IndexError
surfaced to the caller; negative loci within -len do not fail. -/
theorem C3_oob_raises (d : List Int) (locus : Int)
    (h : (d.length : Int) ≤ locus ∨ locus < -(d.length : Int)) :
    depthAt d locus = .error .indexError :=
  depthAt_oob d locus h

/-- Witness for C3 (amended) on the profile [0] at locus 5. -/
theorem C3_oob_raises_witness : depthAt [0] 5 = .error .indexError :=
  C3_oob_raises [0] 5 (by decide)

/-- Claim C4 counterexample: on a freshly constructed engine on which
calculateDepth never ran, getDepths silently returns the empty collection,
and a depth query raises exactly the IndexError that an out-of-range query
on a computed profile raises, so the two conditions are indistinguishable. -/
theorem C4_silent_empty_depths :
    getDepths (initCalculator [(10, 30)] [5]) = [] ∧
    depthAt (getDepths (initCalculator [(10, 30)] [5])) 0 = .error .indexError ∧
    depthAt (calculateDepth ⟨[], [], []⟩).1.depths 7 = .error .indexError :=
  ⟨rfl, by decide, by decide⟩

/-- Claim C4 (amended): before any calculateDepth the stored depths are the
empty list, getDepths silently returns that empty collection, and every depth
query on it fails with the same IndexError an out-of-range query raises;
no distinct StaleOrAbsentProfile error exists in the code. -/
theorem C4_fresh_engine_behavior (reads : List ReadPair) (loci : List Int) :
    getDepths (initCalculator reads loci) = [] ∧
    ∀ locus : Int,
      depthAt (getDepths (initCalculator reads loci)) locus = .error .indexError :=
  ⟨rfl, fun locus => depthAt_nil locus⟩

/-- Claim C5 counterexample: the interval (-1, 2) supplied to the engine has a
negative start, yet calculateDepth completes with no error of any kind: no
InvalidInterval check exists and the negative index wraps silently. -/
theorem C5_negative_interval_accepted :
    (calculateDepth (initCalculator [(-1, 2)] [])).2 = none := by decide

/-- Claim C5 (amended): the code performs no interval validation; a
negative-start interval whose Python index wraps within the delta array is
processed silently and corrupts the profile (reads [(-1,2)] give depths [0,0]
and no error, although position 0 is covered once), while an interval whose
index falls below -size aborts with a plain IndexError (reads [(-5,1)]). -/
theorem C5_no_validation :
    (calculateDepth (initCalculator [(-1, 2)] [])).2 = none ∧
    (calculateDepth (initCalculator [(-1, 2)] [])).1.depths = [0, 0] ∧
    countCovering [(-1, 2)] 0 = 1 ∧
    (calculateDepth (initCalculator [(-5, 1)] [])).2 = some .indexError := by
  refine ⟨by decide, by decide, by decide, by decide⟩

/-- Claim C6: calculateDepth is atomic with respect to the stored depths:
either it completes over the whole ReadSet, storing a profile spanning the
full range up to getMaxPosition, or it raises and the stored depths are left
exactly as they were — a partially applied delta array is never stored. -/
theorem C6_calculateDepth_atomic (rdc : ReadDepthCalculator) :
    ((calculateDepth rdc).2 = none ∧
      ((calculateDepth rdc).1.depths).length = (getMaxPosition rdc.reads).toNat + 1) ∨
    ((calculateDepth rdc).2 = some PyErr.indexError ∧
      (calculateDepth rdc).1.depths = rdc.depths) := by
  rw [calculateDepth_eq]
  cases heq : applyDeltas
      (List.replicate ((getMaxPosition (preprocessReadData rdc.reads)) + 1).toNat 0)
      (preprocessReadData rdc.reads) with
  | error e =>
    right
    cases e
    exact ⟨rfl, rfl⟩
  | ok t =>
    left
    refine ⟨rfl, ?_⟩
    show (prefixSums 0 t).length = (getMaxPosition rdc.reads).toNat + 1
    rw [prefixSums_length, applyDeltas_ok_length _ _ _ heq, List.length_replicate]
    have h1 := getMaxPosition_nonneg (preprocessReadData rdc.reads)
    have h2 : getMaxPosition (preprocessReadData rdc.reads) = getMaxPosition rdc.reads :=
      getMaxPosition_perm (List.perm_insertionSort readLE rdc.reads)
    omega

/-- Claim C7: on the empty ReadSet, calculateDepth stores the single-element
DepthProfile [0] and reports no error. -/
theorem C7_empty_readset (loci depths : List Int) :
    calculateDepth ⟨[], loci, depths⟩ = (⟨[], loci, [0]⟩, none) := rfl

/-- Claim C8: preprocessReadData reorders any ReadSet into ascending order by
the key (start, length) — ties on start broken by length — without altering
the multiset of intervals, and on [(20,40),(10,30),(20,10)] it returns
[(10,30),(20,10),(20,40)]. -/
theorem C8_preprocess_sorts :
    (∀ reads : List ReadPair,
      List.Pairwise readLE (preprocessReadData reads) ∧
        (preprocessReadData reads).Perm reads) ∧
    preprocessReadData [(20, 40), (10, 30), (20, 10)] = [(10, 30), (20, 10), (20, 40)] := by
  constructor
  · intro reads
    exact ⟨List.sorted_insertionSort readLE reads, List.perm_insertionSort readLE reads⟩
  · decide

/-- Claim C9: under the non-negativity precondition every array access of the
accumulation loop is in bounds — calculateDepth reports no IndexError, and
the unconditional decrement index start+length never exceeds getMaxPosition,
the last index of the delta array. -/
theorem C9_accumulation_in_bounds (rdc : ReadDepthCalculator)
    (h : ∀ r ∈ rdc.reads, 0 ≤ r.1 ∧ 0 ≤ r.2) :
    (calculateDepth rdc).2 = none ∧
    ∀ r ∈ rdc.reads, 0 ≤ r.1 + r.2 ∧ r.1 + r.2 ≤ getMaxPosition rdc.reads := by
  refine ⟨(calculateDepth_spec rdc h).1, fun r hr => ?_⟩
  have h1 := h r hr
  exact ⟨by omega, le_getMaxPosition _ r hr⟩

/-- Witness for C9 at the concrete ReadSet [(2,3),(0,1)]. -/
theorem C9_accumulation_in_bounds_witness :
    (calculateDepth ⟨[(2, 3), (0, 1)], [], []⟩).2 = none ∧
    ∀ r ∈ ([(2, 3), (0, 1)] : List ReadPair),
      0 ≤ r.1 + r.2 ∧ r.1 + r.2 ≤ getMaxPosition [(2, 3), (0, 1)] :=
  C9_accumulation_in_bounds ⟨[(2, 3), (0, 1)], [], []⟩ (by decide)

/-- Claim C10 (code-bug evaluation): two engines constructed with no
arguments share the mutable default reads list object, so addReads on the
first is observable from the second: e2 sees [] before the append and
[(1, 2)] after e1.addReads([(1, 2)]), refuting instance isolation. -/
theorem C10_default_instances_share_state :
    heapGetReads (newEngineDefault (newEngineDefault initialHeap).1).1
        (newEngineDefault (newEngineDefault initialHeap).1).2 = [] ∧
    heapGetReads
        (heapAddReads (newEngineDefault (newEngineDefault initialHeap).1).1
          (newEngineDefault initialHeap).2 [(1, 2)])
        (newEngineDefault (newEngineDefault initialHeap).1).2 = [(1, 2)] := by
  exact ⟨by decide, by decide⟩

end ReadDepth
